import Mathlib

/-!
Shallow embedding of the `skej` transaction-schedule conflict analyzer
(src/main.rs) and verification of its specification.

The Rust source models: data items (`Data`) and transaction ids (`TxId`) as
static strings, operations (`Op` = kind + issuing transaction), schedules as
ordered operation lists, a conflict classifier on operation pairs
(`OpPair::is_conflicting`), positional pair enumeration
(`Schedule::conflicting_pairs`, via itertools `combinations(2)`), and
transaction grouping (`Schedule::transactions`, via a `BTreeMap` keyed by
transaction id). `&'static str` ordering in Rust is byte-wise lexicographic,
which for UTF-8 coincides with codepoint-lexicographic order, so Lean's
`String` order models it faithfully.
-/

namespace Skej

/-- Model of `struct Data(&'static str)`. -/
abbrev Data := String

/-- Model of `struct TxId(&'static str)`; `Ord` on `&str` is lexicographic. -/
abbrev TxId := String

/-- Model of `enum OpKind { Read(Data), Write(Data), Commit, Abort }`. -/
inductive OpKind where
  | Read (d : Data)
  | Write (d : Data)
  | Commit
  | Abort
deriving DecidableEq, Repr

/-- Model of `struct Op { kind: OpKind, tx: TxId }`. -/
structure Op where
  kind : OpKind
  tx : TxId
deriving DecidableEq, Repr

instance : Inhabited Op := ⟨⟨OpKind.Commit, ""⟩⟩

/-- Model of `OpPair::are_different_transactions`: `self.0.0.tx != self.0.1.tx`. -/
def are_different_transactions (p : Op × Op) : Bool :=
  p.1.tx != p.2.tx

/-- Model of `OpPair::on_same_data`: extract the data item of each operand
(`Read`/`Write` carry one, `Commit`/`Abort` return `false` early) and compare. -/
def on_same_data (p : Op × Op) : Bool :=
  match p.1.kind with
  | OpKind.Read d1 =>
    match p.2.kind with
    | OpKind.Read d2 => d1 == d2
    | OpKind.Write d2 => d1 == d2
    | _ => false
  | OpKind.Write d1 =>
    match p.2.kind with
    | OpKind.Read d2 => d1 == d2
    | OpKind.Write d2 => d1 == d2
    | _ => false
  | _ => false

/-- Model of `OpPair::one_is_a_write`: matches `(Write(..), _) | (_, Write(..))`. -/
def one_is_a_write (p : Op × Op) : Bool :=
  match p.1.kind, p.2.kind with
  | OpKind.Write _, _ => true
  | _, OpKind.Write _ => true
  | _, _ => false

/-- Model of `OpPair::is_conflicting`: conjunction of the three conditions. -/
def is_conflicting (p : Op × Op) : Bool :=
  are_different_transactions p && on_same_data p && one_is_a_write p

end Skej

namespace Skej

lemma are_different_transactions_iff (a b : Op) :
    are_different_transactions (a, b) = true ↔ a.tx ≠ b.tx := by
  simp [are_different_transactions]

lemma on_same_data_iff (a b : Op) :
    on_same_data (a, b) = true ↔
      ∃ d : Data,
        (a.kind = OpKind.Read d ∨ a.kind = OpKind.Write d) ∧
        (b.kind = OpKind.Read d ∨ b.kind = OpKind.Write d) := by
  obtain ⟨ka, ta⟩ := a
  obtain ⟨kb, tb⟩ := b
  cases ka <;> cases kb <;> simp [on_same_data, beq_iff_eq] <;> aesop

lemma one_is_a_write_iff (a b : Op) :
    one_is_a_write (a, b) = true ↔
      (∃ d : Data, a.kind = OpKind.Write d) ∨ (∃ d : Data, b.kind = OpKind.Write d) := by
  obtain ⟨ka, ta⟩ := a
  obtain ⟨kb, tb⟩ := b
  cases ka <;> cases kb <;> simp [one_is_a_write]

/-- C1 -- The classifier reports a conflict iff: the operands carry different
transaction ids, both are `Read` or `Write` operations on equal data items,
and at least one operand is a `Write`. -/
theorem is_conflicting_iff (a b : Op) :
    is_conflicting (a, b) = true ↔
      (a.tx ≠ b.tx ∧
       (∃ d : Data,
         (a.kind = OpKind.Read d ∨ a.kind = OpKind.Write d) ∧
         (b.kind = OpKind.Read d ∨ b.kind = OpKind.Write d)) ∧
       ((∃ d : Data, a.kind = OpKind.Write d) ∨ (∃ d : Data, b.kind = OpKind.Write d))) := by
  rw [is_conflicting, Bool.and_eq_true, Bool.and_eq_true, and_assoc,
    are_different_transactions_iff, on_same_data_iff, one_is_a_write_iff]

lemma are_different_transactions_symm (a b : Op) :
    are_different_transactions (a, b) = are_different_transactions (b, a) := by
  simp [are_different_transactions, bne, eq_comm]

lemma on_same_data_symm (a b : Op) :
    on_same_data (a, b) = on_same_data (b, a) := by
  obtain ⟨ka, ta⟩ := a
  obtain ⟨kb, tb⟩ := b
  cases ka <;> cases kb <;> simp [on_same_data, eq_comm]

lemma one_is_a_write_symm (a b : Op) :
    one_is_a_write (a, b) = one_is_a_write (b, a) := by
  obtain ⟨ka, ta⟩ := a
  obtain ⟨kb, tb⟩ := b
  cases ka <;> cases kb <;> rfl

/-- C5 -- The conflict predicate is symmetric. -/
theorem is_conflicting_symm (a b : Op) :
    is_conflicting (a, b) = is_conflicting (b, a) := by
  rw [is_conflicting, is_conflicting, are_different_transactions_symm,
    on_same_data_symm, one_is_a_write_symm]

/-- C6 -- `Commit` and `Abort` operations never conflict with anything, on
either side of the pair. -/
theorem commit_abort_never_conflicts (a b : Op)
    (h : b.kind = OpKind.Commit ∨ b.kind = OpKind.Abort) :
    is_conflicting (a, b) = false ∧ is_conflicting (b, a) = false := by
  obtain ⟨ka, ta⟩ := a
  obtain ⟨kb, tb⟩ := b
  rcases h with h | h <;> subst h <;> cases ka <;>
    simp [is_conflicting, are_different_transactions, on_same_data, one_is_a_write]

/-- Witness for C6: instantiated at `W_1(x)` against `C_2`. -/
theorem commit_abort_never_conflicts_witness :
    is_conflicting (⟨OpKind.Write "x", "1"⟩, ⟨OpKind.Commit, "2"⟩) = false ∧
    is_conflicting (⟨OpKind.Commit, "2"⟩, ⟨OpKind.Write "x", "1"⟩) = false :=
  commit_abort_never_conflicts ⟨OpKind.Write "x", "1"⟩ ⟨OpKind.Commit, "2"⟩ (Or.inl rfl)

/-- Model of `struct Schedule { ops: Vec<Op> }`. -/
structure Schedule where
  ops : List Op
deriving DecidableEq, Repr

/-- Model of itertools `combinations(2)` over `self.ops.iter()`: all pairs of
elements at positions `i < j`, emitted in lexicographic position order. -/
def combinations2 : List Op → List (Op × Op)
  | [] => []
  | x :: xs => (xs.map fun y => (x, y)) ++ combinations2 xs

/-- Model of `Schedule::conflicting_pairs`: enumerate the position pairs and
retain the conflicting ones, preserving enumeration order. -/
def Schedule.conflicting_pairs (s : Schedule) : List (Op × Op) :=
  (combinations2 s.ops).filter is_conflicting

/-- Spec-side formulation: all index pairs `(i, j)` with `i < j < n`, generated
by scanning `i` in increasing order and, for each `i`, scanning `j` in
increasing order — the lexicographic scan over positions the spec describes. -/
def indexPairs (n : Nat) : List (Nat × Nat) :=
  (List.range n).flatMap fun i =>
    ((List.range n).filter fun j => decide (i < j)).map fun j => (i, j)

/-- The pair of operations of `ops` at the positions named by `ij`. -/
def pairAt (ops : List Op) (ij : Nat × Nat) : Op × Op :=
  (ops.getD ij.1 default, ops.getD ij.2 default)

/-- Spec-side formulation: operation pairs at positions `i < j`, in
lexicographic scan order over `(i, j)`. -/
def pairsByIndex (ops : List Op) : List (Op × Op) :=
  (indexPairs ops.length).map (pairAt ops)

lemma map_getD_range (l : List Op) :
    (List.range l.length).map (fun j => l.getD j default) = l := by
  induction l with
  | nil => rfl
  | cons x xs ih =>
    rw [List.length_cons, List.range_succ_eq_map, List.map_cons, List.map_map]
    have h : ((fun j => (x :: xs).getD j default) ∘ Nat.succ) =
        fun j => xs.getD j default := by
      funext j
      rfl
    rw [h, ih]
    rfl

lemma indexPairs_succ (n : Nat) :
    indexPairs (n + 1) =
      ((List.range n).map fun j => (0, j + 1)) ++
        (indexPairs n).map fun ij => (ij.1 + 1, ij.2 + 1) := by
  unfold indexPairs
  rw [List.range_succ_eq_map, List.flatMap_cons, List.flatMap_map, List.map_flatMap]
  congr 1
  · rw [List.filter_cons_of_neg (by simp), List.filter_map]
    have hfilter :
        (List.range n).filter ((fun j => decide (0 < j)) ∘ Nat.succ) = List.range n :=
      List.filter_eq_self.mpr fun a _ => by simp
    rw [hfilter, List.map_map]
    rfl
  · congr 1
    funext i
    rw [List.filter_cons_of_neg (by simp), List.filter_map,
      List.map_map, List.map_map]
    have hfilter :
        (List.range n).filter ((fun j => decide (Nat.succ i < j)) ∘ Nat.succ) =
          (List.range n).filter fun j => decide (i < j) :=
      List.filter_congr fun a _ => by simp [Nat.succ_lt_succ_iff]
    rw [hfilter]
    rfl

lemma pairsByIndex_cons (x : Op) (xs : List Op) :
    pairsByIndex (x :: xs) = (xs.map fun y => (x, y)) ++ pairsByIndex xs := by
  unfold pairsByIndex
  rw [List.length_cons, indexPairs_succ, List.map_append, List.map_map, List.map_map]
  congr 1
  · have hx : (pairAt (x :: xs) ∘ fun j => (0, j + 1)) =
        (fun y => (x, y)) ∘ fun j => xs.getD j default := by
      funext j
      rfl
    rw [hx, ← List.map_map, map_getD_range]

lemma combinations2_eq_pairsByIndex (l : List Op) :
    combinations2 l = pairsByIndex l := by
  induction l with
  | nil => rfl
  | cons x xs ih => rw [combinations2, pairsByIndex_cons, ih]

/-- C3 -- `conflicting_pairs` returns exactly the pairs of operations at
positions `(i, j)` with `i < j` that the classifier marks as conflicting, in
the order produced by a lexicographic scan of all index pairs `(i, j)` with
`i < j` — not sorted by any other key. -/
theorem conflicting_pairs_eq_filter_pairsByIndex (s : Schedule) :
    s.conflicting_pairs = (pairsByIndex s.ops).filter is_conflicting := by
  rw [Schedule.conflicting_pairs, combinations2_eq_pairsByIndex]

/-- C4 -- enumeration is positional, not value-based: the multiplicity of any
pair value `p` in `conflicting_pairs` equals the number of index pairs
`(i, j)` with `i < j` at which the schedule exhibits a conflicting pair equal
to `p`; structurally identical pairs arising at different positions are
reported independently, with no deduplication. -/
theorem conflicting_pairs_count_positional (s : Schedule) (p : Op × Op) :
    s.conflicting_pairs.count p =
      ((indexPairs s.ops.length).filter fun ij =>
        is_conflicting (pairAt s.ops ij) && (pairAt s.ops ij == p)).length := by
  rw [Schedule.conflicting_pairs, combinations2_eq_pairsByIndex, pairsByIndex,
    List.count_eq_countP, List.countP_filter, List.countP_map,
    ← List.countP_eq_length_filter]
  exact List.countP_congr fun ij _ => by simp [Function.comp, Bool.and_comm]

/-- Lexicographic comparison of character lists by codepoint. This models the
`Ord` Rust derives for `TxId(&'static str)`: byte-wise lexicographic order on
`&str`, which on UTF-8 coincides with codepoint-lexicographic order. -/
def charListLt : List Char → List Char → Bool
  | _, [] => false
  | [], _ :: _ => true
  | a :: as, b :: bs =>
    if a.val.toNat < b.val.toNat then true
    else if b.val.toNat < a.val.toNat then false
    else charListLt as bs

/-- Strict ordering on transaction ids, as Rust's derived `Ord` on `TxId`. -/
def txLt (a b : TxId) : Bool := charListLt a.data b.data

/-- Model of `struct Transaction { id: TxId, ops: Vec<Op> }`. -/
structure Transaction where
  id : TxId
  ops : List Op
deriving DecidableEq, Repr

/-- One step of the `BTreeMap` accumulation in `Schedule::transactions`:
`result.entry(op.tx).and_modify(|e| e.push(op)).or_insert(vec![op])`. The
`BTreeMap` is modeled as an association list kept sorted by key in ascending
order — the order its iterator yields. -/
def insertOp (m : List (TxId × List Op)) (op : Op) : List (TxId × List Op) :=
  match m with
  | [] => [(op.tx, [op])]
  | (k, v) :: rest =>
    if op.tx = k then (k, v ++ [op]) :: rest
    else if txLt op.tx k then (op.tx, [op]) :: (k, v) :: rest
    else (k, v) :: insertOp rest op

/-- Model of `Schedule::transactions`: fold the schedule in order through the
map accumulation, then emit one `Transaction` per `(id, ops)` entry, in the
map's ascending key order. -/
def Schedule.transactions (s : Schedule) : List Transaction :=
  (s.ops.foldl insertOp []).map fun e => ⟨e.1, e.2⟩

/-- The operation list an association map assigns to key `k` (first hit). -/
def bucket (m : List (TxId × List Op)) (k : TxId) : List Op :=
  match m with
  | [] => []
  | (k₁, v) :: rest => if k = k₁ then v else bucket rest k

/-- The keys of the association map, in entry order. -/
def keys (m : List (TxId × List Op)) : List TxId := m.map Prod.fst

/-- The map's keys are strictly ascending (the `BTreeMap` invariant). -/
def SortedKeys (m : List (TxId × List Op)) : Prop :=
  (keys m).Pairwise fun a b => txLt a b = true

lemma char_eq_of_not_lt {a b : Char} (h₁ : ¬a.val.toNat < b.val.toNat)
    (h₂ : ¬b.val.toNat < a.val.toNat) : a = b :=
  Char.ext (UInt32.toNat.inj (by omega))

lemma charListLt_irrefl (l : List Char) : charListLt l l = false := by
  induction l with
  | nil => rfl
  | cons a as ih => simp [charListLt, ih]

lemma charListLt_trans :
    ∀ {l₁ l₂ l₃ : List Char}, charListLt l₁ l₂ = true → charListLt l₂ l₃ = true →
      charListLt l₁ l₃ = true
  | _, [], _, h₁, _ => by rw [charListLt] at h₁; cases h₁
  | _ :: _, _ :: _, [], _, h₂ => by rw [charListLt] at h₂; cases h₂
  | [], _ :: _, _ :: _, _, _ => rfl
  | x :: xs, y :: ys, z :: zs, h₁, h₂ => by
    rw [charListLt] at h₁ h₂ ⊢
    by_cases hxy : x.val.toNat < y.val.toNat <;>
      by_cases hyz : y.val.toNat < z.val.toNat <;>
      by_cases hyx : y.val.toNat < x.val.toNat <;>
      by_cases hzy : z.val.toNat < y.val.toNat <;>
      simp only [hxy, hyz, hyx, hzy, if_pos, if_neg, if_true, if_false] at h₁ h₂ ⊢ <;>
      first
        | rfl
        | omega
        | exact absurd h₁ Bool.false_ne_true
        | exact absurd h₂ Bool.false_ne_true
        | (rw [if_pos (by omega)])
        | (rw [if_neg (by omega), if_neg (by omega)]
           exact charListLt_trans h₁ h₂)

lemma charListLt_of_ne_of_not_lt :
    ∀ {l₁ l₂ : List Char}, l₁ ≠ l₂ → charListLt l₁ l₂ = false →
      charListLt l₂ l₁ = true
  | [], [], hne, _ => absurd rfl hne
  | [], _ :: _, _, h => by rw [charListLt] at h; cases h
  | _ :: _, [], _, _ => rfl
  | x :: xs, y :: ys, hne, h => by
    rw [charListLt] at h ⊢
    by_cases hxy : x.val.toNat < y.val.toNat
    · rw [if_pos hxy] at h; cases h
    · by_cases hyx : y.val.toNat < x.val.toNat
      · rw [if_pos hyx]
      · have hxyeq : x = y := char_eq_of_not_lt hxy hyx
        rw [if_neg hxy, if_neg hyx] at h
        rw [if_neg hyx, if_neg hxy]
        have htne : xs ≠ ys := by
          intro hxs
          exact hne (by rw [hxyeq, hxs])
        exact charListLt_of_ne_of_not_lt htne h

lemma txLt_irrefl (a : TxId) : txLt a a = false :=
  charListLt_irrefl a.data

lemma txLt_trans {a b c : TxId} (h₁ : txLt a b = true) (h₂ : txLt b c = true) :
    txLt a c = true :=
  charListLt_trans h₁ h₂

lemma txLt_of_ne_of_not_lt {a b : TxId} (hne : a ≠ b) (h : txLt a b = false) :
    txLt b a = true := by
  apply charListLt_of_ne_of_not_lt ?_ h
  intro hdata
  exact hne (by
    cases a
    cases b
    simp only at hdata
    rw [hdata])

lemma txLt_ne {a b : TxId} (h : txLt a b = true) : a ≠ b := by
  rintro rfl
  rw [txLt_irrefl] at h
  cases h

lemma keys_insertOp (m : List (TxId × List Op)) (op : Op) (k : TxId) :
    k ∈ keys (insertOp m op) ↔ k = op.tx ∨ k ∈ keys m := by
  induction m with
  | nil => simp [insertOp, keys]
  | cons e rest ih =>
    obtain ⟨k₁, v⟩ := e
    rw [insertOp]
    split
    · next heq =>
      simp only [keys, List.map_cons, List.mem_cons]
      rw [← heq]
      tauto
    · split
      · simp [keys]
      · simp only [keys, List.map_cons, List.mem_cons] at ih ⊢
        rw [ih]
        tauto

lemma sortedKeys_insertOp {m : List (TxId × List Op)} (op : Op)
    (hm : SortedKeys m) : SortedKeys (insertOp m op) := by
  induction m with
  | nil => simp [insertOp, SortedKeys, keys]
  | cons e rest ih =>
    obtain ⟨k₁, v⟩ := e
    simp only [SortedKeys, keys, List.map_cons, List.pairwise_cons] at hm
    obtain ⟨hhead, htail⟩ := hm
    rw [insertOp]
    split
    · next heq =>
      simp only [SortedKeys, keys, List.map_cons, List.pairwise_cons]
      exact ⟨hhead, htail⟩
    · next hne =>
      split
      · next hlt =>
        simp only [SortedKeys, keys, List.map_cons, List.pairwise_cons,
          List.mem_cons]
        refine ⟨?_, hhead, htail⟩
        rintro b (rfl | hb)
        · exact hlt
        · exact txLt_trans hlt (hhead b hb)
      · next hnlt =>
        have hklt : txLt k₁ op.tx = true :=
          txLt_of_ne_of_not_lt hne (by simpa using hnlt)
        have hrest : SortedKeys (insertOp rest op) := ih htail
        simp only [SortedKeys, keys, List.map_cons, List.pairwise_cons]
        refine ⟨?_, hrest⟩
        intro b hb
        have hb' : b ∈ keys (insertOp rest op) := hb
        rcases (keys_insertOp rest op b).mp hb' with rfl | hbm
        · exact hklt
        · exact hhead b hbm

lemma bucket_eq_nil_of_not_mem {m : List (TxId × List Op)} {k : TxId}
    (h : k ∉ keys m) : bucket m k = [] := by
  induction m with
  | nil => rfl
  | cons e rest ih =>
    obtain ⟨k₁, v⟩ := e
    simp only [keys, List.map_cons, List.mem_cons, not_or] at h
    rw [bucket, if_neg h.1]
    exact ih h.2

lemma bucket_insertOp {m : List (TxId × List Op)} (op : Op) (k : TxId)
    (hm : SortedKeys m) :
    bucket (insertOp m op) k =
      bucket m k ++ (if k = op.tx then [op] else []) := by
  induction m with
  | nil =>
    by_cases hk : k = op.tx <;> simp [insertOp, bucket, hk]
  | cons e rest ih =>
    obtain ⟨k₁, v⟩ := e
    simp only [SortedKeys, keys, List.map_cons, List.pairwise_cons] at hm
    obtain ⟨hhead, htail⟩ := hm
    rw [insertOp]
    split
    · next heq =>
      by_cases hk : k = k₁
      · have hk2 : k = op.tx := by rw [heq]; exact hk
        simp [bucket, hk, hk2, heq]
      · have hk2 : ¬k = op.tx := fun h => hk (h.trans heq)
        simp [bucket, hk, hk2, heq]
    · next hne =>
      split
      · next hlt =>
        by_cases hk : k = op.tx
        · have hnm : k ∉ keys ((k₁, v) :: rest) := by
            rw [hk]
            simp only [keys, List.map_cons, List.mem_cons]
            rintro (h | h)
            · exact hne h
            · have htt := txLt_trans hlt (hhead op.tx h)
              rw [txLt_irrefl] at htt
              cases htt
          rw [bucket, if_pos hk, bucket_eq_nil_of_not_mem hnm, if_pos hk,
            List.nil_append]
        · rw [bucket, if_neg hk, if_neg hk, List.append_nil]
      · next hnlt =>
        by_cases hk : k = k₁
        · have hk2 : ¬k = op.tx := by
            intro h
            exact hne (by rw [← h]; exact hk)
          rw [bucket, if_pos hk, bucket, if_pos hk, if_neg hk2, List.append_nil]
        · rw [bucket, if_neg hk, bucket, if_neg hk]
          exact ih htail

lemma flatten_insertOp (m : List (TxId × List Op)) (op : Op) :
    (List.map Prod.snd (insertOp m op)).flatten.Perm
      (op :: (List.map Prod.snd m).flatten) := by
  induction m with
  | nil => simp [insertOp]
  | cons e rest ih =>
    obtain ⟨k₁, v⟩ := e
    rw [insertOp]
    split
    · simp only [List.map_cons, List.flatten_cons, List.append_assoc,
        List.singleton_append]
      exact List.perm_middle
    · split
      · simp [List.map_cons, List.flatten_cons]
      · simp only [List.map_cons, List.flatten_cons]
        exact (List.Perm.append_left v ih).trans List.perm_middle

lemma sortedKeys_foldl (ops : List Op) (m : List (TxId × List Op))
    (hm : SortedKeys m) : SortedKeys (ops.foldl insertOp m) := by
  induction ops generalizing m with
  | nil => exact hm
  | cons o ops ih => exact ih _ (sortedKeys_insertOp o hm)

lemma bucket_foldl (ops : List Op) (m : List (TxId × List Op)) (k : TxId)
    (hm : SortedKeys m) :
    bucket (ops.foldl insertOp m) k =
      bucket m k ++ ops.filter fun o => decide (o.tx = k) := by
  induction ops generalizing m with
  | nil => simp
  | cons o ops ih =>
    rw [List.foldl_cons, ih _ (sortedKeys_insertOp o hm), bucket_insertOp o k hm,
      List.filter_cons]
    by_cases h : o.tx = k
    · simp [h, List.append_assoc]
    · have h2 : ¬k = o.tx := fun hk => h hk.symm
      simp [h, h2]

lemma keys_foldl (ops : List Op) (m : List (TxId × List Op)) (k : TxId) :
    k ∈ keys (ops.foldl insertOp m) ↔ k ∈ keys m ∨ k ∈ ops.map Op.tx := by
  induction ops generalizing m with
  | nil => simp
  | cons o ops ih =>
    rw [List.foldl_cons, ih, keys_insertOp]
    simp only [List.map_cons, List.mem_cons]
    tauto

lemma flatten_foldl (ops : List Op) (m : List (TxId × List Op)) :
    (List.map Prod.snd (ops.foldl insertOp m)).flatten.Perm
      ((List.map Prod.snd m).flatten ++ ops) := by
  induction ops generalizing m with
  | nil => simp
  | cons o ops ih =>
    rw [List.foldl_cons]
    refine (ih (insertOp m o)).trans ?_
    refine (List.Perm.append_right ops (flatten_insertOp m o)).trans ?_
    exact List.perm_middle.symm

lemma bucket_of_mem {m : List (TxId × List Op)} (hm : SortedKeys m)
    {k : TxId} {v : List Op} (hmem : (k, v) ∈ m) : bucket m k = v := by
  induction m with
  | nil => cases hmem
  | cons e rest ih =>
    obtain ⟨k₁, v₁⟩ := e
    simp only [SortedKeys, keys, List.map_cons, List.pairwise_cons] at hm
    obtain ⟨hhead, htail⟩ := hm
    rcases List.mem_cons.mp hmem with heq | hmem
    · obtain ⟨rfl, rfl⟩ := Prod.mk.injEq k v k₁ v₁ ▸ heq
      simp [bucket]
    · have hk : k ≠ k₁ := by
        intro h
        have hlt := hhead k (List.mem_map.mpr ⟨(k, v), hmem, rfl⟩)
        rw [h, txLt_irrefl] at hlt
        cases hlt
      rw [bucket, if_neg hk]
      exact ih htail hmem

lemma transactions_entries (s : Schedule) :
    ∀ t ∈ s.transactions, t.ops = s.ops.filter fun o => decide (o.tx = t.id) := by
  intro t ht
  rw [Schedule.transactions] at ht
  obtain ⟨⟨k, v⟩, hmem, rfl⟩ := List.mem_map.mp ht
  have hsorted : SortedKeys (s.ops.foldl insertOp []) :=
    sortedKeys_foldl s.ops [] List.Pairwise.nil
  have hb := bucket_of_mem hsorted hmem
  have hf := bucket_foldl s.ops [] k List.Pairwise.nil
  show v = s.ops.filter fun o => decide (o.tx = k)
  rw [← hb, hf]
  rfl

lemma transactions_ids_pairwise (s : Schedule) :
    (s.transactions.map Transaction.id).Pairwise fun a b => txLt a b = true := by
  have hsorted : SortedKeys (s.ops.foldl insertOp []) :=
    sortedKeys_foldl s.ops [] List.Pairwise.nil
  rw [Schedule.transactions, List.map_map]
  exact hsorted

lemma mem_transactions_ids (s : Schedule) (k : TxId) :
    k ∈ s.transactions.map Transaction.id ↔ k ∈ s.ops.map Op.tx := by
  rw [Schedule.transactions, List.map_map]
  have h := keys_foldl s.ops [] k
  simpa [keys] using h

lemma transactions_flatten_perm (s : Schedule) :
    (s.transactions.map Transaction.ops).flatten.Perm s.ops := by
  rw [Schedule.transactions, List.map_map]
  simpa using flatten_foldl s.ops []

/-- C2 -- `transactions` returns one `Transaction` per transaction id occurring
in the schedule, in ascending transaction-id order; each transaction's
operation list is exactly the subsequence of the schedule's operations
carrying that id, in original order (the filter of the schedule by that id);
consequently the concatenation of the per-transaction lists is a permutation
of the schedule's operations. -/
theorem transactions_correct (s : Schedule) :
    ((s.transactions.map Transaction.id).Pairwise fun a b => txLt a b = true) ∧
    (∀ k : TxId, k ∈ s.transactions.map Transaction.id ↔ k ∈ s.ops.map Op.tx) ∧
    (∀ t ∈ s.transactions, t.ops = s.ops.filter fun o => decide (o.tx = t.id)) ∧
    (s.transactions.map Transaction.ops).flatten.Perm s.ops :=
  ⟨transactions_ids_pairwise s, fun k => mem_transactions_ids s k,
    transactions_entries s, transactions_flatten_perm s⟩

/-- Witness for C2: for the one-operation schedule `[R_1(a)]`, the transaction
`⟨1, [R_1(a)]⟩` is among the output and its operations are the filtered
subsequence. -/
theorem transactions_correct_witness :
    (Transaction.mk "1" [Op.mk (OpKind.Read "a") "1"]).ops =
      (Schedule.mk [Op.mk (OpKind.Read "a") "1"]).ops.filter
        (fun o => decide (o.tx = (Transaction.mk "1" [Op.mk (OpKind.Read "a") "1"]).id)) :=
  (transactions_correct ⟨[⟨OpKind.Read "a", "1"⟩]⟩).2.2.1
    ⟨"1", [⟨OpKind.Read "a", "1"⟩]⟩ (by decide)

/-- C10 -- every returned `Transaction` has a non-empty operation list, each
transaction id appears at most once in the output, the set of output ids
equals the set of ids occurring in the schedule, and the empty schedule
yields the empty output. -/
theorem transactions_invariants (s : Schedule) :
    (∀ t ∈ s.transactions, t.ops ≠ []) ∧
    (s.transactions.map Transaction.id).Nodup ∧
    (∀ k : TxId, k ∈ s.transactions.map Transaction.id ↔ k ∈ s.ops.map Op.tx) ∧
    Schedule.transactions ⟨[]⟩ = [] := by
  refine ⟨?_, ?_, fun k => mem_transactions_ids s k, rfl⟩
  · intro t ht
    have hid : t.id ∈ s.transactions.map Transaction.id :=
      List.mem_map.mpr ⟨t, ht, rfl⟩
    have htx : t.id ∈ s.ops.map Op.tx := (mem_transactions_ids s t.id).mp hid
    obtain ⟨o, ho, htxo⟩ := List.mem_map.mp htx
    have hops := transactions_entries s t ht
    rw [hops]
    apply List.ne_nil_of_mem (a := o)
    exact List.mem_filter.mpr ⟨ho, by simp [htxo]⟩
  · exact (transactions_ids_pairwise s).imp fun h => txLt_ne h

/-- Witness for C10: on the schedule `[R_1(a)]`, the output transaction
`⟨1, [R_1(a)]⟩` has a non-empty operation list. -/
theorem transactions_invariants_witness :
    (Transaction.mk "1" [Op.mk (OpKind.Read "a") "1"]).ops ≠ [] :=
  (transactions_invariants ⟨[⟨OpKind.Read "a", "1"⟩]⟩).1
    ⟨"1", [⟨OpKind.Read "a", "1"⟩]⟩ (by decide)

/-- C9 -- the ascending transaction-id order is the lexicographic order of the
identifier text, not numeric order: whenever ids "10" and "2" both occur in a
schedule, transaction "10" is listed strictly before transaction "2". -/
theorem transactions_order_lexicographic (s : Schedule)
    (h10 : "10" ∈ s.ops.map Op.tx) (h2 : "2" ∈ s.ops.map Op.tx) :
    ∃ i j : Fin (s.transactions.map Transaction.id).length,
      i < j ∧ (s.transactions.map Transaction.id).get i = "10" ∧
        (s.transactions.map Transaction.id).get j = "2" := by
  have hp := transactions_ids_pairwise s
  have h10' : "10" ∈ s.transactions.map Transaction.id :=
    (mem_transactions_ids s "10").mpr h10
  have h2' : "2" ∈ s.transactions.map Transaction.id :=
    (mem_transactions_ids s "2").mpr h2
  obtain ⟨i, hi⟩ := List.mem_iff_get.mp h10'
  obtain ⟨j, hj⟩ := List.mem_iff_get.mp h2'
  refine ⟨i, j, ?_, hi, hj⟩
  rcases lt_trichotomy i j with h | h | h
  · exact h
  · exfalso
    rw [h, hj] at hi
    exact absurd hi (by decide)
  · exfalso
    have hlt := List.pairwise_iff_get.mp hp j i h
    rw [hi, hj] at hlt
    exact absurd hlt (by decide)

/-- Witness for C9: on the schedule `[R_10(x), R_2(x)]`, transaction "10"
appears before transaction "2" in the output. -/
theorem transactions_order_lexicographic_witness :
    ∃ i j :
        Fin (((Schedule.mk [⟨OpKind.Read "x", "10"⟩, ⟨OpKind.Read "x", "2"⟩]).transactions.map
          Transaction.id).length),
      i < j ∧
        ((Schedule.mk [⟨OpKind.Read "x", "10"⟩, ⟨OpKind.Read "x", "2"⟩]).transactions.map
          Transaction.id).get i = "10" ∧
        ((Schedule.mk [⟨OpKind.Read "x", "10"⟩, ⟨OpKind.Read "x", "2"⟩]).transactions.map
          Transaction.id).get j = "2" :=
  transactions_order_lexicographic
    ⟨[⟨OpKind.Read "x", "10"⟩, ⟨OpKind.Read "x", "2"⟩]⟩ (by decide) (by decide)

/-- C7 -- end-to-end scenario from `main`: for the schedule
`[R_1(a), W_2(a), A_2, C_1]`, the transactions are `1: [R_1(a), C_1]` and
`2: [W_2(a), A_2]`, and the conflicting pairs are exactly
`[(R_1(a), W_2(a))]`. -/
theorem example_schedule_report :
    (Schedule.mk [⟨OpKind.Read "a", "1"⟩, ⟨OpKind.Write "a", "2"⟩,
        ⟨OpKind.Abort, "2"⟩, ⟨OpKind.Commit, "1"⟩]).transactions =
      [⟨"1", [⟨OpKind.Read "a", "1"⟩, ⟨OpKind.Commit, "1"⟩]⟩,
       ⟨"2", [⟨OpKind.Write "a", "2"⟩, ⟨OpKind.Abort, "2"⟩]⟩] ∧
    (Schedule.mk [⟨OpKind.Read "a", "1"⟩, ⟨OpKind.Write "a", "2"⟩,
        ⟨OpKind.Abort, "2"⟩, ⟨OpKind.Commit, "1"⟩]).conflicting_pairs =
      [(⟨OpKind.Read "a", "1"⟩, ⟨OpKind.Write "a", "2"⟩)] :=
  ⟨by decide, by decide⟩

/-- Model of `impl Display for Op`: `write!(f, "R_{}({})", self.tx.0, dat)`
and the three sibling format strings. -/
def opToString (op : Op) : String :=
  match op.kind with
  | OpKind.Read d => "R_" ++ op.tx ++ "(" ++ d ++ ")"
  | OpKind.Write d => "W_" ++ op.tx ++ "(" ++ d ++ ")"
  | OpKind.Commit => "C_" ++ op.tx
  | OpKind.Abort => "A_" ++ op.tx

/-- Model of `impl Display for Transaction`:
`write!(f, "Transaction '{}': [{}]", self.id.0, parts.join(", "))` where
`parts` renders each operation. -/
def transactionToString (t : Transaction) : String :=
  "Transaction '" ++ t.id ++ "': [" ++
    String.intercalate ", " (t.ops.map opToString) ++ "]"

/-- Spec-side formulation of "comma-space separated": the list's elements
joined with the separator `", "` between every adjacent pair. -/
def commaSpaceJoin : List String → String
  | [] => ""
  | [x] => x
  | x :: y :: xs => x ++ ", " ++ commaSpaceJoin (y :: xs)

lemma intercalate_go_eq :
    ∀ (l : List String) (acc : String),
      String.intercalate.go acc ", " l = commaSpaceJoin (acc :: l) := by
  intro l
  induction l with
  | nil => intro acc; rfl
  | cons b bs ih =>
    intro acc
    rw [String.intercalate.go, ih]
    cases bs with
    | nil => rfl
    | cons c cs => simp [commaSpaceJoin, String.append_assoc]

lemma intercalate_eq_commaSpaceJoin (l : List String) :
    String.intercalate ", " l = commaSpaceJoin l := by
  cases l with
  | nil => rfl
  | cons a as => exact intercalate_go_eq as a

/-- C8 -- the rendering of an operation is exactly the token `R_<tx>(<item>)`
for a read, `W_<tx>(<item>)` for a write, `C_<tx>` for a commit and `A_<tx>`
for an abort; the rendering of every transaction is exactly
`Transaction '<id>': [<op>, <op>, ...]` with its operations rendered by that
token scheme and joined comma-space separated. -/
theorem rendering_tokens :
    (∀ (tx : TxId) (d : Data),
      opToString ⟨OpKind.Read d, tx⟩ = "R_" ++ tx ++ "(" ++ d ++ ")" ∧
      opToString ⟨OpKind.Write d, tx⟩ = "W_" ++ tx ++ "(" ++ d ++ ")" ∧
      opToString ⟨OpKind.Commit, tx⟩ = "C_" ++ tx ∧
      opToString ⟨OpKind.Abort, tx⟩ = "A_" ++ tx) ∧
    (∀ t : Transaction,
      transactionToString t =
        "Transaction '" ++ t.id ++ "': [" ++
          commaSpaceJoin (t.ops.map opToString) ++ "]") := by
  refine ⟨fun tx d => ⟨rfl, rfl, rfl, rfl⟩, fun t => ?_⟩
  rw [transactionToString, intercalate_eq_commaSpaceJoin]

end Skej
